import Mathlib

/-!
Verification development for the YouTube RAG chatbot repository.

The Python sources (`rag_pipeline.py`, `ingest.py`, `utils.py`) are shallowly
embedded below: pure functions become Lean functions over `String`/`List Char`,
machine integers become `Int`/`Nat`, fallible operations return `Option` or
`Except`.  External collaborators (vector store, transcript API, playlist API,
LLM) are passed as oracle parameters.  Python regular-expression scans are
embedded as explicit left-to-right scanners, and the parts of the Python
standard library used by the code (`urllib.parse`) are modelled at the
character level, faithful for ASCII input.
-/

/-! ## Basic list / string utilities -/

/-- Decimal digit character for `d < 10` (codepoint `48 + d`). -/
def digitChar (d : Nat) : Char := Char.ofNat (48 + d)

/-- Fuel-driven accumulation of the decimal digits of `n` (most significant
first).  `fuel ≥ n` makes the result exact. -/
def natDigitsAux : Nat → Nat → List Char
  | 0, _ => []
  | fuel + 1, n =>
    if n = 0 then [] else natDigitsAux fuel (n / 10) ++ [digitChar (n % 10)]

/-- Decimal rendering of a natural number, as Python's `str`. -/
def natRepr (n : Nat) : String :=
  if n = 0 then "0" else ⟨natDigitsAux n n⟩

/-- Decimal rendering of an integer, as Python's `str`. -/
def intRepr (n : Int) : String :=
  if n < 0 then "-" ++ natRepr (-n).toNat else natRepr n.toNat

/-- Left-fold decoding of a decimal digit string. -/
def decDigits (l : List Char) : Nat :=
  l.foldl (fun a c => a * 10 + (c.toNat - 48)) 0

/-- Does `l` start with `p`? -/
def listStartsWith [DecidableEq α] : List α → List α → Bool
  | _, [] => true
  | [], _ :: _ => false
  | a :: as, b :: bs => a = b && listStartsWith as bs

/-- Python's substring test `sub in hay`, on character lists. -/
def containsSub [DecidableEq α] : List α → List α → Bool
  | [], sub => sub.isEmpty
  | a :: as, sub => listStartsWith (a :: as) sub || containsSub as sub

/-- Python's substring test `sub in hay`, on strings. -/
def strContains (hay sub : String) : Bool := containsSub hay.data sub.data

/-- Append `x` to `acc` unless already present: the `if x not in acc:
acc.append(x)` idiom, folded over a list. -/
def dedupAcc [DecidableEq α] : List α → List α → List α
  | [], acc => acc
  | x :: xs, acc => dedupAcc xs (if x ∈ acc then acc else acc ++ [x])

/-! ## Embedding of `rag_pipeline._ts` -/

/-- `rag_pipeline._ts`: clamp to 0 and format as `M:SS` with zero-padded
seconds (`f"{sec // 60}:{sec % 60:02d}"`). -/
def _ts (sec : Int) : String :=
  let s := (max 0 sec).toNat
  natRepr (s / 60) ++ ":" ++
    (if s % 60 < 10 then "0" ++ natRepr (s % 60) else natRepr (s % 60))

/-! ## Regex scanners used by `rag_pipeline._build_used_order`

`re.finditer(r"\[#(\d+)\]", answer)`: a match is `[`, `#`, a maximal nonempty
digit run, `]`.  Matches of this pattern can never overlap (no `[` occurs
inside a match after its first character), so collecting a match at every
position equals Python's non-overlapping left-to-right scan. -/

/-- Longest digit run at the head, and the rest. -/
def takeDigits : List Char → List Char × List Char
  | [] => ([], [])
  | c :: cs =>
    if c.isDigit then
      let (d, r) := takeDigits cs
      (c :: d, r)
    else ([], c :: cs)

/-- The digit group of a `[#digits]` token starting at the head of `#`-rest
(the leading `[` already consumed), if any. -/
def bracketRefAt : List Char → Option (List Char)
  | '#' :: cs =>
    match takeDigits cs with
    | (d :: ds, ']' :: _) => some (d :: ds)
    | _ => none
  | _ => none

/-- All digit groups of `[#digits]` tokens of `s`, left to right. -/
def findBracketRefs : List Char → List (List Char)
  | [] => []
  | c :: cs =>
    (if c = '[' then (bracketRefAt cs).toList else []) ++ findBracketRefs cs

/-- `re.UNICODE` word characters, restricted to ASCII (`[A-Za-z0-9_]`):
the embedding covers ASCII answers. -/
def isWordChar (c : Char) : Bool := c.isAlpha || c.isDigit || c = '_'

/-- `\b` holds after a match / before `rest`. -/
def boundaryAfter : List Char → Bool
  | [] => true
  | c :: _ => !isWordChar c

/-- Greedy match of `\d{1,2}:\d{2}\b` at the head: two digits first, then
backtrack to one digit, exactly as Python's backtracking order.  Returns the
matched text and the rest. -/
def tsMatchAt (s : List Char) : Option (List Char × List Char) :=
  match s with
  | a :: b :: c :: d :: e :: rest =>
    if a.isDigit && b.isDigit && c = ':' && d.isDigit && e.isDigit &&
        boundaryAfter rest then
      some ([a, b, c, d, e], rest)
    else
      match s with
      | a :: c :: d :: e :: rest =>
        if a.isDigit && c = ':' && d.isDigit && e.isDigit && boundaryAfter rest
        then some ([a, c, d, e], rest)
        else none
      | _ => none
  | a :: c :: d :: e :: rest =>
    if a.isDigit && c = ':' && d.isDigit && e.isDigit && boundaryAfter rest
    then some ([a, c, d, e], rest)
    else none
  | _ => none

/-- Non-overlapping left-to-right scan for `\b(\d{1,2}:\d{2})\b`
(`fuel`-driven; `prevW` tracks whether the previous character is a word
character, for the leading `\b`). -/
def scanTimestamps : Nat → Bool → List Char → List (List Char)
  | 0, _, _ => []
  | _ + 1, _, [] => []
  | fuel + 1, prevW, c :: cs =>
    if prevW then scanTimestamps fuel (isWordChar c) cs
    else
      match tsMatchAt (c :: cs) with
      | some (t, rest) => t :: scanTimestamps fuel true rest
      | none => scanTimestamps fuel (isWordChar c) cs

/-- All `MM:SS` matches of the answer, left to right, as strings. -/
def findTimestamps (answer : String) : List String :=
  (scanTimestamps answer.data.length false answer.data).map fun l => ⟨l⟩

/-! ## Embedding of `rag_pipeline._build_used_order` -/

/-- The primary loop: `for m in finditer: rid = "#"+digits; if rid in refs and
rid not in order: order.append(rid)`. -/
def bracketOrderLoop : List String → List String → List String → List String
  | [], _, order => order
  | rid :: toks, refs, order =>
    bracketOrderLoop toks refs
      (if rid ∈ refs ∧ rid ∉ order then order ++ [rid] else order)

/-- The `[#N]` tokens of the answer rendered as `#digits` strings. -/
def bracketTokens (answer : String) : List String :=
  (findBracketRefs answer.data).map fun ds => ⟨'#' :: ds⟩

/-- The fallback inner loop: first pair `(rid, ts)` of `zip(refs, fallback)`
with `ts == t and rid not in order` appends `rid` and breaks. -/
def tsPick (t : String) : List (String × String) → List String → List String
  | [], order => order
  | (rid, ts) :: rest, order =>
    if ts = t ∧ rid ∉ order then order ++ [rid] else tsPick t rest order

/-- `rag_pipeline._build_used_order`: prefer explicit `[#N]` tokens; if none
resolve, fall back to matching `MM:SS` timestamps of the answer against the
retrieved documents' formatted start timestamps. -/
def _build_used_order (answer : String) (refs : List String)
    (fallback_timestamps : List String) : List String :=
  let order := bracketOrderLoop (bracketTokens answer) refs []
  if order.isEmpty then
    let used_ts := dedupAcc (findTimestamps answer) []
    used_ts.foldl (fun order t => tsPick t (refs.zip fallback_timestamps) order) order
  else order

/-! ## Model of the `urllib.parse` functions used by the code

`urlparse`, `parse_qs`, `urlencode`, `urlunparse` are embedded at the
character level, following CPython's implementation, faithful for ASCII
input (percent-escapes of non-ASCII bytes and non-ASCII word characters are
outside the model). -/

/-- Split at the first occurrence of `ch`: `some (before, after)`. -/
def breakAtChar (ch : Char) : List Char → Option (List Char × List Char)
  | [] => none
  | c :: cs =>
    if c = ch then some ([], cs)
    else (breakAtChar ch cs).map fun p => (c :: p.1, p.2)

/-- Split at the last occurrence of `ch`: `some (before, after)`. -/
def breakLastChar (ch : Char) : List Char → Option (List Char × List Char)
  | [] => none
  | c :: cs =>
    match breakLastChar ch cs with
    | some (a, b) => some (c :: a, b)
    | none => if c = ch then some ([], cs) else none

/-- Python `str.split(sep)` for a one-character separator. -/
def splitOnChar (ch : Char) : List Char → List (List Char)
  | [] => [[]]
  | c :: cs =>
    if c = ch then [] :: splitOnChar ch cs
    else
      match splitOnChar ch cs with
      | [] => [[c]]
      | g :: gs => (c :: g) :: gs

/-- `'&'.flatten(...)` style interleaving. -/
def intercalateChar (ch : Char) : List (List Char) → List Char
  | [] => []
  | [x] => x
  | x :: y :: rest => x ++ ch :: intercalateChar ch (y :: rest)

/-- Characters allowed in a URL scheme after the first (letters, digits,
`+`, `-`, `.`). -/
def isSchemeChar (c : Char) : Bool := c.isAlpha || c.isDigit || c = '+' || c = '-' || c = '.'

/-- Scheme recognition of `urlsplit`: a leading `:` at position `> 0`, first
character a letter, remaining scheme characters valid; the scheme is
lowercased. -/
def splitScheme (url : List Char) : Option (List Char × List Char) :=
  match breakAtChar ':' url with
  | some (pre, rest) =>
    match pre with
    | [] => none
    | c0 :: cs =>
      if c0.isAlpha ∧ cs.all isSchemeChar then
        some ((c0 :: cs).map Char.toLower, rest)
      else none
  | none => none

/-- Netloc of `urlsplit`: everything after `//` up to the first `/`, `?`
or `#`. -/
def spanNetloc : List Char → List Char × List Char
  | [] => ([], [])
  | c :: cs =>
    if c = '/' ∨ c = '?' ∨ c = '#' then ([], c :: cs)
    else
      let (a, b) := spanNetloc cs
      (c :: a, b)

structure UrlParse where
  scheme : String
  netloc : String
  path : String
  params : String
  query : String
  fragment : String
deriving DecidableEq, Repr

/-- `_splitparams`: split params off the last path segment. -/
def splitParams (url : List Char) : List Char × List Char :=
  match breakLastChar '/' url with
  | some (pre, seg) =>
    match breakAtChar ';' seg with
    | some (a, b) => (pre ++ '/' :: a, b)
    | none => (url, [])
  | none =>
    match breakAtChar ';' url with
    | some (a, b) => (a, b)
    | none => (url, [])

/-- `urllib.parse.urlparse`: scheme, then netloc after `//`, then fragment
after the first `#`, then query after the first `?`, then params after `;`
in the last path segment. -/
def urlparse (url : String) : UrlParse :=
  let (scheme, rest) :=
    match splitScheme url.data with
    | some (s, r) => (s, r)
    | none => ([], url.data)
  let (netloc, rest) :=
    if listStartsWith rest ['/', '/'] then spanNetloc (rest.drop 2) else ([], rest)
  let (rest, fragment) :=
    match breakAtChar '#' rest with
    | some (a, b) => (a, b)
    | none => (rest, [])
  let (path0, query) :=
    match breakAtChar '?' rest with
    | some (a, b) => (a, b)
    | none => (rest, [])
  let (path, params) :=
    if path0.contains ';' then splitParams path0 else (path0, [])
  ⟨⟨scheme⟩, ⟨netloc⟩, ⟨path⟩, ⟨params⟩, ⟨query⟩, ⟨fragment⟩⟩

/-- Value of an ASCII hex digit. -/
def hexDigitVal (c : Char) : Option Nat :=
  if '0' ≤ c ∧ c ≤ '9' then some (c.toNat - 48)
  else if 'a' ≤ c ∧ c ≤ 'f' then some (c.toNat - 87)
  else if 'A' ≤ c ∧ c ≤ 'F' then some (c.toNat - 55)
  else none

/-- `urllib.parse.unquote`, ASCII model: decode `%XX` escapes, leave invalid
escapes untouched. -/
def unquoteChars : List Char → List Char
  | [] => []
  | '%' :: a :: b :: rest =>
    match hexDigitVal a, hexDigitVal b with
    | some x, some y => Char.ofNat (16 * x + y) :: unquoteChars rest
    | _, _ => '%' :: unquoteChars (a :: b :: rest)
  | c :: rest => c :: unquoteChars rest

/-- The `nv.replace('+', ' ')` step of `parse_qsl`. -/
def replacePlus (l : List Char) : List Char :=
  l.map fun c => if c = '+' then ' ' else c

/-- `urllib.parse.parse_qsl` with default arguments: split on `&`, skip empty
segments, segments without `=` and empty values; unquote names and values. -/
def parse_qsl (qs : List Char) : List (String × String) :=
  (splitOnChar '&' qs).filterMap fun nv =>
    if nv.isEmpty then none
    else
      match breakAtChar '=' nv with
      | none => none
      | some (n, v) =>
        if v.isEmpty then none
        else some (⟨unquoteChars (replacePlus n)⟩, ⟨unquoteChars (replacePlus v)⟩)

/-- `parsed_result[name].append(value)` / `parsed_result[name] = [value]`. -/
def addQsVal (acc : List (String × List String)) (k v : String) :
    List (String × List String) :=
  match acc with
  | [] => [(k, [v])]
  | (k', vs) :: rest =>
    if k' = k then (k', vs ++ [v]) :: rest else (k', vs) :: addQsVal rest k v

/-- `urllib.parse.parse_qs`: a key-ordered dict of value lists. -/
def parse_qs (qs : List Char) : List (String × List String) :=
  (parse_qsl qs).foldl (fun acc p => addQsVal acc p.1 p.2) []

/-- Python dict assignment `q[k] = v`: replace in place, else append. -/
def setQsItem (q : List (String × List String)) (k : String) (v : List String) :
    List (String × List String) :=
  match q with
  | [] => [(k, v)]
  | (k', v') :: rest =>
    if k' = k then (k, v) :: rest else (k', v') :: setQsItem rest k v

/-- Characters `quote_plus` leaves unescaped (letters, digits, `_.-~`). -/
def isAlwaysSafe (c : Char) : Bool :=
  c.isAlpha || c.isDigit || c = '_' || c = '.' || c = '-' || c = '~'

/-- Uppercase hex digit. -/
def hexDigitChar (n : Nat) : Char :=
  if n < 10 then digitChar n else Char.ofNat (55 + n)

/-- `urllib.parse.quote_plus` with `safe=''`, per character (ASCII model). -/
def quoteChar (c : Char) : List Char :=
  if isAlwaysSafe c then [c]
  else if c = ' ' then ['+']
  else ['%', hexDigitChar (c.toNat / 16), hexDigitChar (c.toNat % 16)]

/-- `urllib.parse.quote_plus` with `safe=''` (ASCII model). -/
def quotePlus (s : String) : String := ⟨(s.data.map quoteChar).flatten⟩

/-- The `k=v` segments emitted by `urlencode(q, doseq=True)`, in order. -/
def urlencodeSegs (q : List (String × List String)) : List (List Char) :=
  (q.map fun p => p.2.map fun v => (quotePlus p.1).data ++ '=' :: (quotePlus v).data).flatten

/-- `urllib.parse.urlencode` with `doseq=True` on a dict of string lists. -/
def urlencode (q : List (String × List String)) : String :=
  ⟨intercalateChar '&' (urlencodeSegs q)⟩

/-- `urllib.parse.urlunsplit` on the five components. -/
def urlunsplitStr (scheme netloc url query fragment : String) : String :=
  let url :=
    if netloc ≠ "" ∨ listStartsWith url.data ['/', '/'] then
      (if url ≠ "" ∧ ¬ listStartsWith url.data ['/'] then "//" ++ netloc ++ "/" ++ url
       else "//" ++ netloc ++ url)
    else url
  let url := if scheme ≠ "" then scheme ++ ":" ++ url else url
  let url := if query ≠ "" then url ++ "?" ++ query else url
  if fragment ≠ "" then url ++ "#" ++ fragment else url

/-- `urllib.parse.urlunparse` on the six components. -/
def urlunparse (scheme netloc path params query fragment : String) : String :=
  urlunsplitStr scheme netloc
    (if params ≠ "" then path ++ ";" ++ params else path) query fragment

/-- `rag_pipeline._add_ts`: inject/overwrite the `t=<seconds>s` query
parameter of a URL. -/
def _add_ts (url : String) (start_sec : Int) : String :=
  let u := urlparse url
  let q := parse_qs u.query.data
  let q := setQsItem q "t" [intRepr start_sec ++ "s"]
  let new_query := urlencode q
  urlunparse u.scheme u.netloc u.path u.params new_query u.fragment

/-! ## Retrieved documents, video tags and reference ids -/

/-- A retrieved document: a LangChain `Document` whose metadata was written by
`ingest.index_videos` (all metadata keys present; `score` models
`getattr(d, "score", None)`). -/
structure Doc where
  page_content : String
  video_id : String
  title : String
  video_url : String
  start : Int
  end_ : Int
  duration : Int
  score : Option Int := none
deriving DecidableEq, Repr

/-- `rag_pipeline._build_video_tags`: insertion-ordered dict from video id to
tag `V1`, `V2`, … in first-seen order. -/
def _build_video_tags (docs : List Doc) : List (String × String) :=
  docs.foldl
    (fun tags d =>
      if tags.any fun p => p.1 = d.video_id then tags
      else tags ++ [(d.video_id, "V" ++ natRepr (tags.length + 1))])
    []

/-- `video_tags.get(vid, "V?")`. -/
def tagOf (video_tags : List (String × String)) (vid : String) : String :=
  ((video_tags.filter fun p => p.1 = vid).head?.map Prod.snd).getD "V?"

/-- `ref_ids = [f"#{i+1}" for i in range(len(docs))]`. -/
def refIdsN (n : Nat) : List String :=
  (List.range n).map fun i => "#" ++ natRepr (i + 1)

/-- First-seen order of the distinct video ids of the retrieved list. -/
def firstSeenVids (docs : List Doc) : List String :=
  dedupAcc (docs.map fun d => d.video_id) []

/-- Tag assignment from a first-seen list: element `i` (0-based, counting
from `k`) gets tag `V(k+i+1)`. -/
def tagListFrom : Nat → List String → List (String × String)
  | _, [] => []
  | k, v :: vs => (v, "V" ++ natRepr (k + 1)) :: tagListFrom (k + 1) vs

/-- `rag_pipeline._doc_with_bracket_prefix` (inlined name): prefix the text
with `[#N VX MM:SS–MM:SS] `. -/
def docWithBracket (d : Doc) (ref_id vtag : String) : Doc :=
  { d with
    page_content :=
      "[" ++ ref_id ++ " " ++ vtag ++ " " ++ _ts d.start ++ "–" ++ _ts d.end_ ++ "] "
        ++ d.page_content }

/-! ## Embedding of `rag_pipeline._build_citations` -/

/-- One citation record. -/
structure Cite where
  ref_id : String
  video_tag : String
  video_title : String
  timestamp : String
  url : String
  snippet : String
  score : Option Int
  video_url : String
  start : Int
  used : Bool
deriving DecidableEq, Repr

/-- The citation record built for one `(doc, ref_id)` pair. -/
def mkCite (video_tags : List (String × String)) (d : Doc) (ref_id : String) : Cite :=
  { ref_id := ref_id
    video_tag := tagOf video_tags d.video_id
    video_title := d.title
    timestamp := _ts d.start
    url := _add_ts d.video_url d.start
    snippet := d.page_content.take 140 ++ (if 140 < d.page_content.length then "…" else "")
    score := d.score
    video_url := d.video_url
    start := d.start
    used := false }

/-- `items = [...]` of `_build_citations` (`zip(docs, ref_ids)`). -/
def citeItems (docs : List Doc) (ref_ids : List String)
    (video_tags : List (String × String)) : List Cite :=
  List.zipWith (mkCite video_tags) docs ref_ids

/-- Pair each element with its position. -/
def enumIdx : Nat → List α → List (Nat × α)
  | _, [] => []
  | k, a :: as => (k, a) :: enumIdx (k + 1) as

/-- Index of the item `ref_to_item[rid]` refers to: the dict comprehension
`{c["ref_id"]: c for c in items}` keeps the last item per ref id. -/
def lastIdxWith (items : List Cite) (rid : String) : Option Nat :=
  (enumIdx 0 items).foldl (fun acc p => if p.2.ref_id = rid then some p.1 else acc) none

/-- The used-marking loop of `_build_citations`, as the list of marked item
indices in marking order. -/
def usedIdxLoop (items : List Cite) : List String → List Nat → List Nat
  | [], acc => acc
  | rid :: rest, acc =>
    usedIdxLoop items rest
      (match lastIdxWith items rid with
       | some i => if i ∈ acc then acc else acc ++ [i]
       | none => acc)

def usedIdxsOf (items : List Cite) (used_order : List String) : List Nat :=
  usedIdxLoop items used_order []

def markUsed (c : Cite) : Cite := { c with used := true }

def eraseUsed (c : Cite) : Cite := { c with used := false }

/-- The `used_first` segment: marked items in marking order. -/
def usedFirstOf (items : List Cite) (used_order : List String) : List Cite :=
  (usedIdxsOf items used_order).filterMap fun i => (items.get? i).map markUsed

/-- The unsorted `others` segment: items not marked used, in item order. -/
def othersOf (items : List Cite) (used_order : List String) : List Cite :=
  (((enumIdx 0 items).filter fun p => p.1 ∉ usedIdxsOf items used_order).map Prod.snd)

/-- The sort key order `(x["video_tag"], x["start"])`, strict. -/
def citeLt (a b : Cite) : Prop :=
  a.video_tag < b.video_tag ∨ (a.video_tag = b.video_tag ∧ a.start < b.start)

instance : DecidableRel citeLt := fun a b => by
  unfold citeLt; infer_instance

/-- The sort key order `(x["video_tag"], x["start"])`, non-strict. -/
def citeLe (a b : Cite) : Prop :=
  a.video_tag < b.video_tag ∨ (a.video_tag = b.video_tag ∧ a.start ≤ b.start)

/-- Stable insertion (equal keys keep the incoming element first). -/
def insSorted (x : Cite) : List Cite → List Cite
  | [] => [x]
  | y :: ys => if citeLt y x then y :: insSorted x ys else x :: y :: ys

/-- Stable sort by `(video_tag, start)`, the effect of
`others.sort(key=lambda x: (x["video_tag"], x["start"]))` (Python's sort is
stable, and stable sorts agree). -/
def sortCites : List Cite → List Cite
  | [] => []
  | x :: xs => insSorted x (sortCites xs)

/-- `source_videos`: deduplicated non-empty video urls in citation order. -/
def sourceVideos (cs : List Cite) : List String :=
  cs.foldl
    (fun acc c => if c.video_url ≠ "" ∧ c.video_url ∉ acc then acc ++ [c.video_url] else acc)
    []

/-- `rag_pipeline._build_citations`: used-first segment, then the remaining
items sorted by `(video_tag, start)`; plus the deduplicated source video urls. -/
def _build_citations (docs : List Doc) (ref_ids : List String)
    (video_tags : List (String × String)) (used_order : List String) :
    List Cite × List String :=
  let items := citeItems docs ref_ids video_tags
  let citations_sorted :=
    usedFirstOf items used_order ++ sortCites (othersOf items used_order)
  (citations_sorted, sourceVideos citations_sorted)

/-! ## Embedding of `rag_pipeline.answer_question`

Retrieval and the LLM are external collaborators: the retrieved list and the
generator are parameters.  Wall-clock timings are not modelled. -/

def answer_question (question : String) (retrieved : List Doc)
    (gen : List Doc → String → String) : String × List Cite × List String :=
  if retrieved.isEmpty then
    ("I couldn't find relevant transcript segments for that question.", [], [])
  else
    let video_tags := _build_video_tags retrieved
    let ref_ids := refIdsN retrieved.length
    let docs_for_llm :=
      List.zipWith (fun d rid => docWithBracket d rid (tagOf video_tags d.video_id))
        retrieved ref_ids
    let final_answer := gen docs_for_llm question
    let used_order :=
      _build_used_order final_answer ref_ids (retrieved.map fun d => _ts d.start)
    let (citations, source_videos) := _build_citations retrieved ref_ids video_tags used_order
    (final_answer, citations, source_videos)

/-! ## Embedding of `utils.clean_transcript` and the ingestion pipeline -/

/-- ASCII `\s` characters. -/
def isSpaceChar (c : Char) : Bool :=
  c = ' ' || c = '\t' || c = '\n' || c = '\x0d' || c = '\x0b' || c = '\x0c'

/-- `re.sub(r"\s+", " ", text)`: each maximal whitespace run becomes one
space. -/
def collapseWs : List Char → List Char
  | [] => []
  | [c] => [if isSpaceChar c then ' ' else c]
  | c :: c2 :: cs =>
    if isSpaceChar c then
      (if isSpaceChar c2 then collapseWs (c2 :: cs) else ' ' :: collapseWs (c2 :: cs))
    else c :: collapseWs (c2 :: cs)

/-- `str.strip()` after whitespace collapsing. -/
def stripWs (l : List Char) : List Char :=
  ((l.dropWhile isSpaceChar).reverse.dropWhile isSpaceChar).reverse

/-- `utils.clean_transcript`. -/
def clean_transcript (text : String) : String :=
  ⟨stripWs (collapseWs text.data)⟩

/-- `ingest.extract_video_id` (`none` models the `ValueError`). -/
def extract_video_id (url : String) : Option String :=
  let parsed := urlparse url
  let fromV : Option String :=
    if strContains parsed.netloc "youtube.com" then
      match (parse_qs parsed.query.data).lookup "v" with
      | some vs => vs.head?
      | none => none
    else none
  match fromV with
  | some v => some v
  | none =>
    if strContains parsed.netloc "youtu.be" then
      some ⟨parsed.path.data.dropWhile (· = '/')⟩
    else none

/-- `ingest.extract_playlist_id` (`none` models the `ValueError`). -/
def extract_playlist_id (url : String) : Option String :=
  match (parse_qs (urlparse url).query.data).lookup "list" with
  | some vs => vs.head?
  | none => none

/-- One video to ingest (`{id, title, index, playlist_id}`). -/
structure VideoInfo where
  id : String
  title : String
  index : Option Nat
  playlist_id : Option String
deriving DecidableEq, Repr

/-- Which branch of the URL loop of `ingest.index_videos` a URL takes. -/
inductive UrlBranch
  | playlistUrl (pid : Option String)
  | videoUrl (vid : Option String)
deriving DecidableEq, Repr

/-- The branch decision of `ingest.index_videos` for one URL:
`"list=" in u or "/playlist" in u` selects the playlist branch. -/
def classifyUrl (u : String) : UrlBranch :=
  if strContains u "list=" || strContains u "/playlist" then
    .playlistUrl (extract_playlist_id u)
  else
    .videoUrl (extract_video_id u)

/-- The videos contributed by one URL: a playlist is expanded through the
(oracle) playlist API; a failing extraction prints a warning and contributes
nothing. -/
def collectUrlVideos (enumeratePlaylist : String → List VideoInfo) (u : String) :
    List VideoInfo :=
  match classifyUrl u with
  | .playlistUrl (some pid) => enumeratePlaylist pid
  | .playlistUrl none => []
  | .videoUrl (some vid) =>
    [{ id := vid, title := "Video " ++ vid, index := none, playlist_id := none }]
  | .videoUrl none => []

/-- One fetched transcript snippet; `start` and `duration` stand for
`int(snip["start"])` and `int(float(snip.get("duration", 0)))`. -/
structure Snip where
  text : String
  start : Int
  duration : Int
deriving DecidableEq, Repr

/-- One raw document built from a snippet (`docs.append({...})`). -/
structure RawDoc where
  content : String
  video_id : String
  title : String
  video_url : String
  playlist_id : Option String
  index_in_playlist : Option Nat
  start : Int
  end_ : Int
  duration : Int
deriving DecidableEq, Repr

/-- The raw document built for snippet `s` of video `v`
(`v.get("title") or f"Video {v['id']}"` falls back on an empty title). -/
def mkRawDoc (v : VideoInfo) (s : Snip) : RawDoc :=
  { content := clean_transcript s.text
    video_id := v.id
    title := if v.title = "" then "Video " ++ v.id else v.title
    video_url := "https://youtu.be/" ++ v.id
    playlist_id := v.playlist_id
    index_in_playlist := v.index
    start := s.start
    end_ := s.start + s.duration
    duration := s.duration }

/-- Snippet-processing step of `ingest.index_videos`: per-video transcripts
(`none` = fetch failed, video skipped with a warning), snippets deduplicated
by `(video_id, start)` through the `seen_snippets` set. -/
def buildDocs (videos : List (VideoInfo × Option (List Snip))) : List RawDoc :=
  (videos.foldl
    (fun (st : List (String × Int) × List RawDoc) vt =>
      match vt.2 with
      | none => st
      | some transcript =>
        transcript.foldl
          (fun st snip =>
            let key := (vt.1.id, snip.start)
            if key ∈ st.1 then st
            else (st.1 ++ [key], st.2 ++ [mkRawDoc vt.1 snip]))
          st)
    ([], [])).2

/-- All fetched `(video, snippet)` pairs in processing order. -/
def allSnipPairs (videos : List (VideoInfo × Option (List Snip))) :
    List (VideoInfo × Snip) :=
  videos.foldl
    (fun acc vt =>
      match vt.2 with
      | none => acc
      | some t => acc ++ t.map fun s => (vt.1, s))
    []

/-- Keep the first pair per `(video_id, start)` key. -/
def dedupPairsByKey : List (VideoInfo × Snip) → List (String × Int) → List (VideoInfo × Snip)
  | [], _ => []
  | p :: ps, seen =>
    if (p.1.id, p.2.start) ∈ seen then dedupPairsByKey ps seen
    else p :: dedupPairsByKey ps (seen ++ [(p.1.id, p.2.start)])

/-- The chunking step: every raw document is split (by the external text
splitter) into pieces which all inherit the document's metadata. -/
def chunksOf (docs : List RawDoc) (split : String → List String) :
    List (String × RawDoc) :=
  docs.foldl (fun acc d => acc ++ (split d.content).map fun p => (p, d)) []

/-- The fallible skeleton of `ingest.index_videos` after URL collection:
fails if no snippets were fetched, or if no chunks were produced; otherwise
returns the chunk set handed to the embedding/indexing stage. -/
def index_videos_chunks (videos : List (VideoInfo × Option (List Snip)))
    (split : String → List String) : Except String (List (String × RawDoc)) :=
  let docs := buildDocs videos
  if docs.isEmpty then
    .error "No transcript snippets fetched for any provided URLs."
  else
    let chunked := chunksOf docs split
    if chunked.isEmpty then
      .error "No chunks produced; nothing to embed/index."
    else
      .ok chunked

/-! ## Definitions written from the specification's words (for comparison)

The claims describe the primary used-reference pattern as bare `#` + digits;
these definitions follow that wording and are compared against the code's
bracket-based extraction. -/

/-- Modelled from the spec: scan left-to-right for tokens matching `#`
followed by digits (`#` then a maximal nonempty digit run; such matches
cannot overlap). -/
def specBareRefTokens : List Char → List (List Char)
  | [] => []
  | c :: cs =>
    (if c = '#' then
       match takeDigits cs with
       | (d :: ds, _) => [d :: ds]
       | _ => []
     else []) ++ specBareRefTokens cs

/-- Modelled from the spec: the distinct bare `#N` tokens of the answer that
name a retrieved document, in order of first occurrence. -/
def specBareUsedOrder (answer : String) (refs : List String) : List String :=
  dedupAcc
    (((specBareRefTokens answer.data).map fun ds => (⟨'#' :: ds⟩ : String)).filter
      fun t => t ∈ refs)
    []

/-! # Theorems -/

/-! ## Decimal rendering -/

theorem decDigits_append_digit (l : List Char) (c : Char) :
    decDigits (l ++ [c]) = decDigits l * 10 + (c.toNat - 48) := by
  simp [decDigits, List.foldl_append]

theorem digitChar_toNat {d : Nat} (h : d < 10) : (digitChar d).toNat = 48 + d := by
  interval_cases d <;> decide

theorem decDigits_natDigitsAux {fuel n : Nat} (h : n ≤ fuel) :
    decDigits (natDigitsAux fuel n) = n := by
  induction fuel generalizing n with
  | zero => simp [natDigitsAux, decDigits]; omega
  | succ fuel ih =>
    by_cases h0 : n = 0
    · simp [natDigitsAux, h0, decDigits]
    · have hdiv : n / 10 ≤ fuel := by
        have := Nat.div_lt_self (Nat.pos_of_ne_zero h0) (by norm_num : (1:Nat) < 10)
        omega
      have := ih hdiv
      simp only [natDigitsAux, h0, if_false, decDigits_append_digit, this,
        digitChar_toNat (Nat.mod_lt n (by norm_num))]
      omega

theorem natRepr_injective : Function.Injective natRepr := by
  intro m n h
  have hd := congrArg String.data h
  have hz : decDigits ['0'] = 0 := by decide
  by_cases hm : m = 0 <;> by_cases hn : n = 0
  · omega
  · exfalso
    simp only [natRepr, hm, hn, if_true, if_false] at hd
    have h2 := decDigits_natDigitsAux (le_refl n)
    rw [← hd] at h2
    omega
  · exfalso
    simp only [natRepr, hm, hn, if_true, if_false] at hd
    have h1 := decDigits_natDigitsAux (le_refl m)
    rw [hd] at h1
    omega
  · simp only [natRepr, hm, hn, if_false] at hd
    have h1 := decDigits_natDigitsAux (le_refl m)
    have h2 := decDigits_natDigitsAux (le_refl n)
    rw [hd] at h1
    omega

theorem string_data_inj {a b : String} (h : a.data = b.data) : a = b := by
  cases a; cases b; exact congrArg String.mk h

/-! ## Used-order extraction: helper lemmas -/

theorem bracketOrderLoop_eq (toks refs : List String) (acc : List String) :
    bracketOrderLoop toks refs acc =
      dedupAcc (toks.filter fun t => decide (t ∈ refs)) acc := by
  induction toks generalizing acc with
  | nil => rfl
  | cons t ts ih =>
    simp only [bracketOrderLoop, List.filter_cons]
    by_cases h1 : t ∈ refs
    · by_cases h2 : t ∈ acc
      · simp [h1, h2, dedupAcc, ih]
      · simp [h1, h2, dedupAcc, ih]
    · simp [h1, dedupAcc, ih]

theorem build_used_order_of_primary_ne {answer : String} {refs : List String}
    (fallback_timestamps : List String)
    (h : bracketOrderLoop (bracketTokens answer) refs [] ≠ []) :
    _build_used_order answer refs fallback_timestamps =
      bracketOrderLoop (bracketTokens answer) refs [] := by
  unfold _build_used_order
  simp only [List.isEmpty_iff, h, if_false]

/-! ## C1 / C2: used-reference extraction -/

/-- C1 (counterexample): the spec's primary pattern is bare `#` + digits, but
the code's scanner requires the bracketed form `[#N]`.  On the answer
`"use #1 here"` with retrieved reference `#1`, the claim predicts the
used-order `["#1"]`, while `_build_used_order` returns `[]`. -/
theorem C1_counterexample :
    specBareUsedOrder "use #1 here" ["#1"] = ["#1"] ∧
    _build_used_order "use #1 here" ["#1"] [] ≠ ["#1"] ∧
    _build_used_order "use #1 here" ["#1"] [] = [] := by decide

/-- C1 (amended): the primary used-reference extraction scans the answer
left-to-right for tokens of the bracketed form `[#` digits `]`, and collects
each distinct reference id naming a retrieved document the first time it
appears, preserving encounter order (it equals first-occurrence dedup of the
bracketed tokens filtered to the known reference ids); when nonempty, this
list is the used-order result. -/
theorem C1_primary_extraction (answer : String) (refs fallback_timestamps : List String) :
    bracketOrderLoop (bracketTokens answer) refs [] =
      dedupAcc ((bracketTokens answer).filter fun t => decide (t ∈ refs)) [] ∧
    (bracketOrderLoop (bracketTokens answer) refs [] ≠ [] →
      _build_used_order answer refs fallback_timestamps =
        bracketOrderLoop (bracketTokens answer) refs []) :=
  ⟨bracketOrderLoop_eq _ _ _, fun h => build_used_order_of_primary_ne _ h⟩

theorem C1_primary_extraction_witness :
    bracketOrderLoop (bracketTokens "Use [#2] and [#1], then [#2].") ["#1", "#2", "#3"] [] =
      dedupAcc
        ((bracketTokens "Use [#2] and [#1], then [#2].").filter
          fun t => decide (t ∈ (["#1", "#2", "#3"] : List String))) [] ∧
    _build_used_order "Use [#2] and [#1], then [#2]." ["#1", "#2", "#3"]
        ["0:01", "0:02", "0:03"] =
      bracketOrderLoop (bracketTokens "Use [#2] and [#1], then [#2].") ["#1", "#2", "#3"] [] :=
  ⟨(C1_primary_extraction "Use [#2] and [#1], then [#2]." ["#1", "#2", "#3"]
      ["0:01", "0:02", "0:03"]).1,
   (C1_primary_extraction "Use [#2] and [#1], then [#2]." ["#1", "#2", "#3"]
      ["0:01", "0:02", "0:03"]).2 (by decide)⟩

/-- C2 (counterexample): the answer `"see #2 at 0:05"` contains the
reference-id token `#2` (bare `#` + digits) naming retrieved document `#2`,
yet the code takes the timestamp fallback (the bare token is not bracketed)
and returns `["#1"]`, not the reference-id list `["#2"]`. -/
theorem C2_counterexample :
    specBareUsedOrder "see #2 at 0:05" ["#1", "#2"] = ["#2"] ∧
    _build_used_order "see #2 at 0:05" ["#1", "#2"] ["0:05", "0:07"] = ["#1"] := by decide

/-- C2 (amended): if the answer contains at least one bracketed `[#N]` token
naming a retrieved document (the primary extraction is nonempty), the
used-order computation returns the bracket-extraction list and the fallback
timestamp-matching path is never invoked: the result is that list for every
choice of fallback timestamps, hence independent of them. -/
theorem C2_no_fallback (answer : String) (refs : List String)
    (h : bracketOrderLoop (bracketTokens answer) refs [] ≠ [])
    (fallback_timestamps fallback_timestamps' : List String) :
    _build_used_order answer refs fallback_timestamps =
      bracketOrderLoop (bracketTokens answer) refs [] ∧
    _build_used_order answer refs fallback_timestamps =
      _build_used_order answer refs fallback_timestamps' := by
  refine ⟨build_used_order_of_primary_ne _ h, ?_⟩
  rw [build_used_order_of_primary_ne _ h, build_used_order_of_primary_ne _ h]

theorem C2_no_fallback_witness :
    _build_used_order "see [#1] at 9:59" ["#1"] ["0:05"] =
      bracketOrderLoop (bracketTokens "see [#1] at 9:59") ["#1"] [] ∧
    _build_used_order "see [#1] at 9:59" ["#1"] ["0:05"] =
      _build_used_order "see [#1] at 9:59" ["#1"] ["9:59"] :=
  C2_no_fallback "see [#1] at 9:59" ["#1"] (by decide) ["0:05"] ["9:59"]

/-! ## C7: empty retrieval -/

/-- C7: when retrieval returns zero documents, `answer_question` returns the
fixed no-relevant-segments message with empty citations and source-video
lists (and, being total, raises no error). -/
theorem C7_empty_retrieval (question : String) (gen : List Doc → String → String) :
    answer_question question [] gen =
      ("I couldn't find relevant transcript segments for that question.", [], []) := rfl

/-! ## C9: empty ingestion fails loudly -/

/-- C9: if zero transcript snippets are fetched, or zero chunks are produced
across the whole batch, `index_videos` raises an explicit error instead of
building an empty index. -/
theorem C9_empty_ingestion_fails (videos : List (VideoInfo × Option (List Snip)))
    (split : String → List String)
    (h : buildDocs videos = [] ∨ chunksOf (buildDocs videos) split = []) :
    ∃ msg, index_videos_chunks videos split = .error msg := by
  unfold index_videos_chunks
  by_cases hd : buildDocs videos = []
  · exact ⟨"No transcript snippets fetched for any provided URLs.", by simp [hd]⟩
  · rcases h with h | h
    · exact absurd h hd
    · refine ⟨"No chunks produced; nothing to embed/index.", ?_⟩
      simp only [List.isEmpty_iff, hd, if_false, h, if_true]

theorem C9_empty_ingestion_fails_witness :
    ∃ msg,
      index_videos_chunks
        [(⟨"A", "TA", none, none⟩, some [⟨"hello", 0, 1⟩])] (fun _ => []) = .error msg :=
  C9_empty_ingestion_fails [(⟨"A", "TA", none, none⟩, some [⟨"hello", 0, 1⟩])]
    (fun _ => []) (Or.inr (by decide))

/-! ## C10: playlist classification precedence -/

/-- C10 (counterexample): the URL `"https://www.youtube.com/playlist"`
contains `"/playlist"`, so the claim asserts the playlist is expanded; but no
`list` query parameter is extractable, and the URL loop of `index_videos`
skips it with a warning — nothing is expanded even under an enumerator that
returns a video for every playlist id. -/
theorem C10_counterexample :
    strContains "https://www.youtube.com/playlist" "/playlist" = true ∧
    classifyUrl "https://www.youtube.com/playlist" = .playlistUrl none ∧
    collectUrlVideos (fun _ => [⟨"x", "X", none, none⟩])
      "https://www.youtube.com/playlist" = [] := by decide

/-- C10 (amended): a URL containing `"list="` or `"/playlist"` always takes
the playlist branch of `index_videos` — never the single-video branch, even
when a `v=` parameter is present; the whole playlist is expanded through the
playlist API whenever a `list` query parameter is extractable, and otherwise
the URL is skipped with a warning. -/
theorem C10_playlist_precedence (u : String)
    (enumeratePlaylist : String → List VideoInfo)
    (h : strContains u "list=" = true ∨ strContains u "/playlist" = true) :
    classifyUrl u = .playlistUrl (extract_playlist_id u) ∧
    (∀ pid, extract_playlist_id u = some pid →
      collectUrlVideos enumeratePlaylist u = enumeratePlaylist pid) ∧
    (extract_playlist_id u = none → collectUrlVideos enumeratePlaylist u = []) := by
  have hc : (strContains u "list=" || strContains u "/playlist") = true := by
    rcases h with h | h <;> simp [h]
  refine ⟨by simp [classifyUrl, hc], fun pid hp => ?_, fun hp => ?_⟩
  · simp [collectUrlVideos, classifyUrl, hc, hp]
  · simp [collectUrlVideos, classifyUrl, hc, hp]

theorem C10_playlist_precedence_witness :
    classifyUrl "https://www.youtube.com/watch?v=abc&list=PL1" =
      .playlistUrl (extract_playlist_id "https://www.youtube.com/watch?v=abc&list=PL1") ∧
    collectUrlVideos (fun pid => [⟨pid, "t", none, none⟩])
        "https://www.youtube.com/watch?v=abc&list=PL1" =
      [⟨"PL1", "t", none, none⟩] :=
  ⟨(C10_playlist_precedence "https://www.youtube.com/watch?v=abc&list=PL1"
      (fun pid => [⟨pid, "t", none, none⟩]) (Or.inl (by decide))).1,
   (C10_playlist_precedence "https://www.youtube.com/watch?v=abc&list=PL1"
      (fun pid => [⟨pid, "t", none, none⟩]) (Or.inl (by decide))).2.1 "PL1" (by decide)⟩

/-! ## C4: reference ids and video tags -/

theorem tagListFrom_map_fst (k : Nat) (vs : List String) :
    (tagListFrom k vs).map Prod.fst = vs := by
  induction vs generalizing k with
  | nil => rfl
  | cons v vs ih => simp [tagListFrom, ih]

theorem tagListFrom_length (k : Nat) (vs : List String) :
    (tagListFrom k vs).length = vs.length := by
  induction vs generalizing k with
  | nil => rfl
  | cons v vs ih => simp [tagListFrom, ih]

theorem tagListFrom_append (k : Nat) (xs : List String) (y : String) :
    tagListFrom k (xs ++ [y]) =
      tagListFrom k xs ++ [(y, "V" ++ natRepr (k + xs.length + 1))] := by
  induction xs generalizing k with
  | nil => simp [tagListFrom]
  | cons x xs ih =>
    simp only [List.cons_append, tagListFrom, ih, List.length_cons]
    have h : k + 1 + xs.length + 1 = k + (xs.length + 1) + 1 := by omega
    rw [show (xs.append [y]) = xs ++ [y] from rfl, ih, h]

theorem any_tagListFrom (k : Nat) (vs : List String) (vid : String) :
    ((tagListFrom k vs).any fun p => p.1 = vid) = true ↔ vid ∈ vs := by
  rw [List.any_eq_true]
  constructor
  · rintro ⟨p, hp, he⟩
    have h1 : p.1 = vid := of_decide_eq_true he
    have h2 : p.1 ∈ (tagListFrom k vs).map Prod.fst := List.mem_map_of_mem _ hp
    rw [tagListFrom_map_fst, h1] at h2
    exact h2
  · intro hv
    have : vid ∈ (tagListFrom k vs).map Prod.fst := by rw [tagListFrom_map_fst]; exact hv
    rcases List.mem_map.mp this with ⟨p, hp, he⟩
    exact ⟨p, hp, decide_eq_true he⟩

theorem build_video_tags_fold (docs : List Doc) (seen : List String) :
    docs.foldl
      (fun tags d =>
        if tags.any fun p => p.1 = d.video_id then tags
        else tags ++ [(d.video_id, "V" ++ natRepr (tags.length + 1))])
      (tagListFrom 0 seen) =
      tagListFrom 0 (dedupAcc (docs.map fun d => d.video_id) seen) := by
  induction docs generalizing seen with
  | nil => rfl
  | cons d ds ih =>
    simp only [List.foldl_cons, List.map_cons, dedupAcc]
    by_cases hv : d.video_id ∈ seen
    · have ha : ((tagListFrom 0 seen).any fun p => p.1 = d.video_id) = true :=
        (any_tagListFrom 0 seen d.video_id).mpr hv
      rw [ha, if_pos rfl, if_pos hv]
      exact ih seen
    · have ha : ((tagListFrom 0 seen).any fun p => p.1 = d.video_id) = false := by
        rw [Bool.eq_false_iff]
        intro hc
        exact hv ((any_tagListFrom 0 seen d.video_id).mp hc)
      rw [ha, if_neg (by simp), if_neg hv, tagListFrom_length]
      have happ := tagListFrom_append 0 seen d.video_id
      rw [Nat.zero_add] at happ
      rw [← happ]
      exact ih (seen ++ [d.video_id])

theorem build_video_tags_eq (docs : List Doc) :
    _build_video_tags docs = tagListFrom 0 (firstSeenVids docs) :=
  build_video_tags_fold docs []

theorem refIdsN_nodup (n : Nat) : (refIdsN n).Nodup := by
  apply List.Nodup.map
  · intro i j hij
    have hd := congrArg String.data hij
    rw [String.data_append, String.data_append] at hd
    have h2 : (natRepr (i + 1)).data = (natRepr (j + 1)).data :=
      List.append_cancel_left hd
    have := natRepr_injective (string_data_inj h2)
    omega
  · exact List.nodup_range n

theorem dedupAcc_nodup [DecidableEq α] :
    ∀ (l acc : List α), acc.Nodup → (dedupAcc l acc).Nodup := by
  intro l
  induction l with
  | nil => intro acc h; exact h
  | cons x xs ih =>
    intro acc h
    simp only [dedupAcc]
    by_cases hx : x ∈ acc
    · rw [if_pos hx]
      exact ih acc h
    · rw [if_neg hx]
      apply ih
      rw [List.nodup_append]
      exact ⟨h, List.nodup_singleton x, by simpa using hx⟩

theorem tagListFrom_map_snd (k : Nat) (vs : List String) :
    (tagListFrom k vs).map Prod.snd =
      (List.range' (k + 1) vs.length).map fun m => "V" ++ natRepr m := by
  induction vs generalizing k with
  | nil => rfl
  | cons v vs ih => simp [tagListFrom, ih, List.range'_succ]

theorem tagListFrom_snd_nodup (k : Nat) (vs : List String) :
    ((tagListFrom k vs).map Prod.snd).Nodup := by
  rw [tagListFrom_map_snd]
  apply List.Nodup.map
  · intro i j hij
    have hd := congrArg String.data hij
    rw [String.data_append, String.data_append] at hd
    exact natRepr_injective (string_data_inj (List.append_cancel_left hd))
  · exact List.nodup_range' ..

/-- C4: reference ids `#1, #2, …` assigned by list position are pairwise
distinct; for every retrieved list, the video-tag table pairs exactly the
distinct video ids, in first-seen order, with the tags `V1, V2, …` in order
(one pairwise-distinct tag per distinct video id); in particular, a
retrieved list whose first-seen video ids are exactly `[a, b]` gets exactly
the tags `V1` (for `a`, the earliest document's video) and `V2` (for `b`). -/
theorem C4_ref_ids_video_tags :
    (∀ n : Nat, (refIdsN n).Nodup) ∧
    (∀ docs : List Doc,
      _build_video_tags docs = tagListFrom 0 (firstSeenVids docs) ∧
      (_build_video_tags docs).map Prod.fst = firstSeenVids docs ∧
      (firstSeenVids docs).Nodup ∧
      ((_build_video_tags docs).map Prod.snd).Nodup) ∧
    (∀ (docs : List Doc) (a b : String), firstSeenVids docs = [a, b] →
      _build_video_tags docs = [(a, "V1"), (b, "V2")]) := by
  refine ⟨refIdsN_nodup, fun docs => ?_, fun docs a b h => ?_⟩
  · refine ⟨build_video_tags_eq docs, ?_, dedupAcc_nodup _ [] List.nodup_nil, ?_⟩
    · rw [build_video_tags_eq, tagListFrom_map_fst]
    · rw [build_video_tags_eq]
      exact tagListFrom_snd_nodup 0 (firstSeenVids docs)
  · rw [build_video_tags_eq, h]
    have h1 : "V" ++ natRepr 1 = "V1" := by decide
    have h2 : "V" ++ natRepr 2 = "V2" := by decide
    simp [tagListFrom, h1, h2]

theorem C4_ref_ids_video_tags_witness :
    (refIdsN 3).Nodup ∧
    _build_video_tags
      [{ page_content := "a", video_id := "A", title := "TA", video_url := "uA",
         start := 0, end_ := 0, duration := 0 },
       { page_content := "b", video_id := "B", title := "TB", video_url := "uB",
         start := 1, end_ := 0, duration := 0 },
       { page_content := "c", video_id := "A", title := "TA", video_url := "uA",
         start := 2, end_ := 0, duration := 0 }] =
      tagListFrom 0 (firstSeenVids
        [{ page_content := "a", video_id := "A", title := "TA", video_url := "uA",
           start := 0, end_ := 0, duration := 0 },
         { page_content := "b", video_id := "B", title := "TB", video_url := "uB",
           start := 1, end_ := 0, duration := 0 },
         { page_content := "c", video_id := "A", title := "TA", video_url := "uA",
           start := 2, end_ := 0, duration := 0 }]) ∧
    _build_video_tags
      [{ page_content := "a", video_id := "A", title := "TA", video_url := "uA",
         start := 0, end_ := 0, duration := 0 },
       { page_content := "b", video_id := "B", title := "TB", video_url := "uB",
         start := 1, end_ := 0, duration := 0 },
       { page_content := "c", video_id := "A", title := "TA", video_url := "uA",
         start := 2, end_ := 0, duration := 0 }] =
      [("A", "V1"), ("B", "V2")] :=
  ⟨C4_ref_ids_video_tags.1 3,
   (C4_ref_ids_video_tags.2.1
     [{ page_content := "a", video_id := "A", title := "TA", video_url := "uA",
        start := 0, end_ := 0, duration := 0 },
      { page_content := "b", video_id := "B", title := "TB", video_url := "uB",
        start := 1, end_ := 0, duration := 0 },
      { page_content := "c", video_id := "A", title := "TA", video_url := "uA",
        start := 2, end_ := 0, duration := 0 }]).1,
   C4_ref_ids_video_tags.2.2
     [{ page_content := "a", video_id := "A", title := "TA", video_url := "uA",
        start := 0, end_ := 0, duration := 0 },
      { page_content := "b", video_id := "B", title := "TB", video_url := "uB",
        start := 1, end_ := 0, duration := 0 },
      { page_content := "c", video_id := "A", title := "TA", video_url := "uA",
        start := 2, end_ := 0, duration := 0 }] "A" "B" (by decide)⟩

/-! ## C3: citation completeness — helper lemmas -/

theorem enumIdx_map_snd (k : Nat) (l : List α) : (enumIdx k l).map Prod.snd = l := by
  induction l generalizing k with
  | nil => rfl
  | cons a as ih => simp [enumIdx, ih]

theorem enumIdx_map_fst (k : Nat) (l : List α) :
    (enumIdx k l).map Prod.fst = List.range' k l.length := by
  induction l generalizing k with
  | nil => rfl
  | cons a as ih => simp [enumIdx, ih, List.range'_succ]

theorem mem_enumIdx {k i : Nat} {a : α} {l : List α} :
    (i, a) ∈ enumIdx k l ↔ k ≤ i ∧ l.get? (i - k) = some a := by
  induction l generalizing k with
  | nil => simp [enumIdx]
  | cons b bs ih =>
    simp only [enumIdx, List.mem_cons, ih, Prod.mk.injEq]
    constructor
    · rintro (⟨rfl, rfl⟩ | ⟨h1, h2⟩)
      · simp
      · refine ⟨by omega, ?_⟩
        have h3 : i - k = (i - (k + 1)) + 1 := by omega
        rw [h3, List.get?_cons_succ]
        exact h2
    · rintro ⟨h1, h2⟩
      by_cases hik : i = k
      · subst hik
        rw [Nat.sub_self, List.get?_cons_zero, Option.some.injEq] at h2
        exact Or.inl ⟨rfl, h2.symm⟩
      · have h3 : i - k = (i - (k + 1)) + 1 := by omega
        rw [h3, List.get?_cons_succ] at h2
        exact Or.inr ⟨by omega, h2⟩

theorem enumIdx_fst_nodup (k : Nat) (l : List α) :
    ((enumIdx k l).map Prod.fst).Nodup := by
  rw [enumIdx_map_fst]
  exact List.nodup_range' ..

theorem filter_perm_extract {β : Type} (is : List Nat) :
    ∀ (ps : List (Nat × β)) (i : Nat) (b : β),
      (i, b) ∈ ps → ((ps.map Prod.fst).Nodup) → i ∉ is →
      List.Perm (ps.filter fun p => p.1 ∉ is)
        ((i, b) :: ps.filter fun p => p.1 ∉ i :: is) := by
  intro ps
  induction ps with
  | nil => intro i b hmem; cases hmem
  | cons q ps ih =>
    intro i b hmem huniq hni
    rw [List.map_cons] at huniq
    have hnodup := List.nodup_cons.mp huniq
    rcases List.mem_cons.mp hmem with he | hm
    · cases he
      have heq : ps.filter (fun p => p.1 ∉ is) = ps.filter (fun p => p.1 ∉ i :: is) := by
        apply List.filter_congr
        intro p hp
        have hne : p.1 ≠ i := by
          intro hpi
          have hmm := List.mem_map_of_mem Prod.fst hp
          exact hnodup.1 (by rw [← hpi]; exact hmm)
        simp [List.mem_cons, hne]
      rw [List.filter_cons, List.filter_cons]
      have hc1 : (decide ((i, b).1 ∉ is)) = true := by simp [hni]
      have hc2 : (decide ((i, b).1 ∉ i :: is)) = false := by simp
      rw [hc1, hc2, if_pos rfl, if_neg Bool.false_ne_true, heq]
    · have hq : q.1 ≠ i := by
        intro hqi
        have hi' : i ∈ ps.map Prod.fst := List.mem_map_of_mem Prod.fst hm
        exact hnodup.1 (hqi ▸ hi')
      rw [List.filter_cons, List.filter_cons]
      by_cases hqin : q.1 ∈ is
      · have hc1 : (decide (q.1 ∉ is)) = false := by simp [hqin]
        have hc2 : (decide (q.1 ∉ i :: is)) = false := by
          simp [List.mem_cons, hqin]
        rw [hc1, hc2, if_neg Bool.false_ne_true, if_neg Bool.false_ne_true]
        exact ih i b hm hnodup.2 hni
      · have hc1 : (decide (q.1 ∉ is)) = true := by simp [hqin]
        have hc2 : (decide (q.1 ∉ i :: is)) = true := by
          simp [List.mem_cons, hqin, hq]
        rw [hc1, hc2, if_pos rfl, if_pos rfl]
        exact ((ih i b hm hnodup.2 hni).cons q).trans
          (List.Perm.swap (i, b) q (ps.filter fun p => p.1 ∉ i :: is))

theorem pick_perm {α : Type} (l : List α) (is : List Nat)
    (hnd : is.Nodup) (hlt : ∀ i ∈ is, i < l.length) :
    List.Perm
      ((is.filterMap l.get?) ++
        (((enumIdx 0 l).filter fun p => p.1 ∉ is).map Prod.snd)) l := by
  induction is with
  | nil =>
    simp only [List.filterMap_nil, List.nil_append]
    have h0 : ((enumIdx 0 l).filter fun p => p.1 ∉ ([] : List Nat)) = enumIdx 0 l := by
      apply List.filter_eq_self.mpr
      intro p _
      exact decide_eq_true (List.not_mem_nil p.1)
    rw [h0, enumIdx_map_snd]
  | cons i is ih =>
    have hi : i < l.length := hlt i (List.mem_cons_self i is)
    have hnodup := List.nodup_cons.mp hnd
    obtain ⟨a, ha⟩ : ∃ a, l.get? i = some a := by
      rw [List.get?_eq_get hi]; exact ⟨_, rfl⟩
    have hmem : (i, a) ∈ enumIdx 0 l := by
      rw [mem_enumIdx]
      exact ⟨Nat.zero_le i, by rwa [Nat.sub_zero]⟩
    have E := filter_perm_extract is (enumIdx 0 l) i a hmem
      (enumIdx_fst_nodup 0 l) hnodup.1
    have Emap := E.map Prod.snd
    have IH := ih hnodup.2 fun j hj => hlt j (List.mem_cons_of_mem i hj)
    rw [List.filterMap_cons_some ha, List.cons_append]
    have step1 :
        List.Perm
          (a :: (is.filterMap l.get? ++
            (((enumIdx 0 l).filter fun p => p.1 ∉ i :: is).map Prod.snd)))
          (is.filterMap l.get? ++
            a :: (((enumIdx 0 l).filter fun p => p.1 ∉ i :: is).map Prod.snd)) :=
      List.perm_middle.symm
    have step2 :
        List.Perm
          (is.filterMap l.get? ++
            a :: (((enumIdx 0 l).filter fun p => p.1 ∉ i :: is).map Prod.snd))
          (is.filterMap l.get? ++
            (((enumIdx 0 l).filter fun p => p.1 ∉ is).map Prod.snd)) :=
      List.Perm.append_left _ (by simpa using Emap.symm)
    exact (step1.trans step2).trans IH

theorem foldl_lastIdx_aux (rid : String) :
    ∀ (ps : List (Nat × Cite)) (acc : Option Nat) (i : Nat),
      ps.foldl (fun acc p => if p.2.ref_id = rid then some p.1 else acc) acc = some i →
      (∃ c, (i, c) ∈ ps) ∨ acc = some i := by
  intro ps
  induction ps with
  | nil => intro acc i h; exact Or.inr h
  | cons p ps ih =>
    intro acc i h
    rw [List.foldl_cons] at h
    rcases ih _ i h with ⟨c, hc⟩ | hacc
    · exact Or.inl ⟨c, List.mem_cons_of_mem _ hc⟩
    · by_cases hr : p.2.ref_id = rid
      · rw [if_pos hr] at hacc
        have hp : p.1 = i := Option.some.inj hacc
        exact Or.inl ⟨p.2, by rw [← hp]; exact List.mem_cons_self p ps⟩
      · rw [if_neg hr] at hacc
        exact Or.inr hacc

theorem lastIdxWith_lt {items : List Cite} {rid : String} {i : Nat}
    (h : lastIdxWith items rid = some i) : i < items.length := by
  rcases foldl_lastIdx_aux rid (enumIdx 0 items) none i h with ⟨c, hc⟩ | hn
  · have hm := mem_enumIdx.mp hc
    have h2 := hm.2
    rw [Nat.sub_zero] at h2
    obtain ⟨hlt, _⟩ := List.get?_eq_some.mp h2
    exact hlt
  · cases hn

theorem usedIdxLoop_nodup_lt (items : List Cite) (uo : List String) :
    ∀ acc : List Nat, acc.Nodup → (∀ i ∈ acc, i < items.length) →
      (usedIdxLoop items uo acc).Nodup ∧
        ∀ i ∈ usedIdxLoop items uo acc, i < items.length := by
  induction uo with
  | nil => intro acc h1 h2; exact ⟨h1, h2⟩
  | cons rid uo ih =>
    intro acc h1 h2
    simp only [usedIdxLoop]
    cases hL : lastIdxWith items rid with
    | none => exact ih acc h1 h2
    | some j =>
      show (usedIdxLoop items uo (if j ∈ acc then acc else acc ++ [j])).Nodup ∧
        ∀ i ∈ usedIdxLoop items uo (if j ∈ acc then acc else acc ++ [j]),
          i < items.length
      by_cases hj : j ∈ acc
      · rw [if_pos hj]
        exact ih acc h1 h2
      · rw [if_neg hj]
        apply ih
        · rw [List.nodup_append]
          exact ⟨h1, List.nodup_singleton j, by simpa using hj⟩
        · intro i hi
          rcases List.mem_append.mp hi with h | h
          · exact h2 i h
          · rw [List.mem_singleton] at h
            rw [h]
            exact lastIdxWith_lt hL

theorem mem_citeItems_used {docs : List Doc} {ref_ids : List String}
    {vtags : List (String × String)} {c : Cite}
    (h : c ∈ citeItems docs ref_ids vtags) : c.used = false := by
  induction docs generalizing ref_ids with
  | nil => cases h
  | cons d ds ih =>
    cases ref_ids with
    | nil => cases h
    | cons r rs =>
      rcases List.mem_cons.mp h with he | hm
      · rw [he]; rfl
      · exact ih hm

theorem eraseUsed_of_not_used {c : Cite} (h : c.used = false) : eraseUsed c = c := by
  cases c
  simp only [eraseUsed]
  simp_all

theorem insSorted_perm (x : Cite) (l : List Cite) :
    List.Perm (insSorted x l) (x :: l) := by
  induction l with
  | nil => exact List.Perm.refl _
  | cons y ys ih =>
    simp only [insSorted]
    by_cases h : citeLt y x
    · rw [if_pos h]
      exact (ih.cons y).trans (List.Perm.swap x y ys)
    · rw [if_neg h]

theorem sortCites_perm (l : List Cite) : List.Perm (sortCites l) l := by
  induction l with
  | nil => exact List.Perm.refl _
  | cons x xs ih =>
    exact (insSorted_perm x (sortCites xs)).trans (ih.cons x)

theorem mem_othersOf_mem_items {items : List Cite} {uo : List String} {c : Cite}
    (h : c ∈ othersOf items uo) : c ∈ items := by
  rcases List.mem_map.mp h with ⟨p, hp, he⟩
  have hpe : p ∈ enumIdx 0 items := List.mem_of_mem_filter hp
  have : p.2 ∈ (enumIdx 0 items).map Prod.snd := List.mem_map_of_mem Prod.snd hpe
  rw [enumIdx_map_snd] at this
  rw [← he]
  exact this

/-- C3: for every retrieved list (with its position-assigned reference ids),
every video-tag table and every used-order list — including ones naming
unknown reference ids — the assembled citation list is, up to the `used`
flag, a permutation of the per-document citation records: every retrieved
document yields exactly one citation (used-first segment or others segment),
none duplicated, none dropped, and unknown reference ids are silently
ignored. -/
theorem C3_citation_completeness (docs : List Doc) (ref_ids : List String)
    (video_tags : List (String × String)) (used_order : List String) :
    List.Perm
      ((_build_citations docs ref_ids video_tags used_order).1.map eraseUsed)
      (citeItems docs ref_ids video_tags) := by
  have hIdx := usedIdxLoop_nodup_lt (citeItems docs ref_ids video_tags) used_order []
    List.nodup_nil (by intro i h; cases h)
  have hused : ∀ c ∈ citeItems docs ref_ids video_tags, c.used = false :=
    fun c hc => mem_citeItems_used hc
  show List.Perm
    ((usedFirstOf (citeItems docs ref_ids video_tags) used_order ++
        sortCites (othersOf (citeItems docs ref_ids video_tags) used_order)).map eraseUsed)
    (citeItems docs ref_ids video_tags)
  rw [List.map_append]
  have h1 : (usedFirstOf (citeItems docs ref_ids video_tags) used_order).map eraseUsed =
      (usedIdxsOf (citeItems docs ref_ids video_tags) used_order).filterMap
        (citeItems docs ref_ids video_tags).get? := by
    rw [usedFirstOf, List.map_filterMap]
    congr 1
    funext i
    cases hg : (citeItems docs ref_ids video_tags).get? i with
    | none => rfl
    | some c =>
      have hc : c ∈ citeItems docs ref_ids video_tags := List.get?_mem hg
      simp only [Option.map_some, Option.map]
      rw [show eraseUsed (markUsed c) = c from
        (rfl : eraseUsed (markUsed c) = eraseUsed c).trans
          (eraseUsed_of_not_used (hused c hc))]
  have h2 : List.Perm
      ((sortCites (othersOf (citeItems docs ref_ids video_tags) used_order)).map eraseUsed)
      (othersOf (citeItems docs ref_ids video_tags) used_order) := by
    have hp := (sortCites_perm
      (othersOf (citeItems docs ref_ids video_tags) used_order)).map eraseUsed
    have he : (othersOf (citeItems docs ref_ids video_tags) used_order).map eraseUsed =
        othersOf (citeItems docs ref_ids video_tags) used_order := by
      have hid : ∀ c ∈ othersOf (citeItems docs ref_ids video_tags) used_order,
          eraseUsed c = id c :=
        fun c hc => eraseUsed_of_not_used (hused c (mem_othersOf_mem_items hc))
      rw [List.map_congr_left hid, List.map_id]
    exact hp.trans (by rw [he])
  rw [h1]
  have hfinal := pick_perm (citeItems docs ref_ids video_tags)
    (usedIdxsOf (citeItems docs ref_ids video_tags) used_order) hIdx.1 hIdx.2
  exact ((List.Perm.append_left _ h2).trans hfinal)

/-! ## C5: ordering of the unused citations -/

theorem citeLe_of_lt {a b : Cite} (h : citeLt a b) : citeLe a b := by
  rcases h with h | ⟨h1, h2⟩
  · exact Or.inl h
  · exact Or.inr ⟨h1, le_of_lt h2⟩

theorem citeLe_of_not_lt {a b : Cite} (h : ¬ citeLt b a) : citeLe a b := by
  rcases lt_trichotomy a.video_tag b.video_tag with h1 | h1 | h1
  · exact Or.inl h1
  · refine Or.inr ⟨h1, ?_⟩
    by_contra hs
    exact h (Or.inr ⟨h1.symm, by omega⟩)
  · exact absurd (Or.inl h1) h

theorem citeLe_trans {a b c : Cite} (h1 : citeLe a b) (h2 : citeLe b c) : citeLe a c := by
  rcases h1 with h1 | ⟨h1, h1'⟩ <;> rcases h2 with h2 | ⟨h2, h2'⟩
  · exact Or.inl (lt_trans h1 h2)
  · exact Or.inl (h2 ▸ h1)
  · exact Or.inl (h1 ▸ h2)
  · exact Or.inr ⟨h1.trans h2, le_trans h1' h2'⟩

theorem mem_insSorted {x y : Cite} {l : List Cite} :
    y ∈ insSorted x l ↔ y = x ∨ y ∈ l :=
  ((insSorted_perm x l).mem_iff).trans List.mem_cons

theorem insSorted_pairwise {x : Cite} {l : List Cite} (h : l.Pairwise citeLe) :
    (insSorted x l).Pairwise citeLe := by
  induction l with
  | nil => simp [insSorted]
  | cons y ys ih =>
    rcases List.pairwise_cons.mp h with ⟨hy, hys⟩
    simp only [insSorted]
    by_cases hlt : citeLt y x
    · rw [if_pos hlt]
      apply List.pairwise_cons.mpr
      refine ⟨fun z hz => ?_, ih hys⟩
      rcases mem_insSorted.mp hz with rfl | hzys
      · exact citeLe_of_lt hlt
      · exact hy z hzys
    · rw [if_neg hlt]
      apply List.pairwise_cons.mpr
      refine ⟨fun z hz => ?_, h⟩
      rcases List.mem_cons.mp hz with rfl | hzys
      · exact citeLe_of_not_lt hlt
      · exact citeLe_trans (citeLe_of_not_lt hlt) (hy z hzys)

theorem sortCites_pairwise (l : List Cite) : (sortCites l).Pairwise citeLe := by
  induction l with
  | nil => simp [sortCites]
  | cons x xs ih => exact insSorted_pairwise ih

/-- C5: the assembled citation list is the used-first segment followed by the
unused items sorted by `(video_tag, start)`: among the unused citations,
every pair is ordered by video tag ascending and, within equal tags, by
start second ascending; and all of them carry `used = false`. -/
theorem C5_others_sorted (docs : List Doc) (ref_ids : List String)
    (video_tags : List (String × String)) (used_order : List String) :
    (_build_citations docs ref_ids video_tags used_order).1 =
      usedFirstOf (citeItems docs ref_ids video_tags) used_order ++
        sortCites (othersOf (citeItems docs ref_ids video_tags) used_order) ∧
    (sortCites (othersOf (citeItems docs ref_ids video_tags) used_order)).Pairwise
      citeLe ∧
    ∀ c ∈ sortCites (othersOf (citeItems docs ref_ids video_tags) used_order),
      c.used = false := by
  refine ⟨rfl, sortCites_pairwise _, fun c hc => ?_⟩
  have hmem := (sortCites_perm
    (othersOf (citeItems docs ref_ids video_tags) used_order)).mem_iff.mp hc
  exact mem_citeItems_used (mem_othersOf_mem_items hmem)

/-! ## C8: snippet deduplication -/

theorem allSnipPairs_acc (videos : List (VideoInfo × Option (List Snip))) :
    ∀ acc : List (VideoInfo × Snip),
      videos.foldl
        (fun acc vt =>
          match vt.2 with
          | none => acc
          | some t => acc ++ t.map fun s => (vt.1, s)) acc =
      acc ++ allSnipPairs videos := by
  induction videos with
  | nil => intro acc; simp [allSnipPairs]
  | cons vt vs ih =>
    intro acc
    rw [List.foldl_cons]
    unfold allSnipPairs
    rw [List.foldl_cons, ih, ih]
    cases h2 : vt.2 with
    | none => simp
    | some t => simp [h2, List.append_assoc]

theorem snipFold_flatten (videos : List (VideoInfo × Option (List Snip))) :
    ∀ st : List (String × Int) × List RawDoc,
      videos.foldl
        (fun st vt =>
          match vt.2 with
          | none => st
          | some transcript =>
            transcript.foldl
              (fun st snip =>
                if (vt.1.id, snip.start) ∈ st.1 then st
                else (st.1 ++ [(vt.1.id, snip.start)], st.2 ++ [mkRawDoc vt.1 snip]))
              st) st =
      (allSnipPairs videos).foldl
        (fun st p =>
          if (p.1.id, p.2.start) ∈ st.1 then st
          else (st.1 ++ [(p.1.id, p.2.start)], st.2 ++ [mkRawDoc p.1 p.2])) st := by
  induction videos with
  | nil => intro st; rfl
  | cons vt vs ih =>
    intro st
    rw [List.foldl_cons]
    have hcons : allSnipPairs (vt :: vs) =
        (match vt.2 with
         | none => []
         | some t => t.map fun s => (vt.1, s)) ++ allSnipPairs vs := by
      unfold allSnipPairs
      rw [List.foldl_cons, allSnipPairs_acc]
      cases h2 : vt.2 with
      | none => simp [allSnipPairs]
      | some t => simp [h2, allSnipPairs]
    rw [hcons, List.foldl_append]
    cases h2 : vt.2 with
    | none =>
      rw [ih]
      rfl
    | some t =>
      rw [ih]
      congr 1
      rw [List.foldl_map]

theorem dedup_fold_spec (pairs : List (VideoInfo × Snip)) :
    ∀ (seen : List (String × Int)) (docs0 : List RawDoc),
      pairs.foldl
        (fun st p =>
          if (p.1.id, p.2.start) ∈ st.1 then st
          else (st.1 ++ [(p.1.id, p.2.start)], st.2 ++ [mkRawDoc p.1 p.2]))
        (seen, docs0) =
      (seen ++ (dedupPairsByKey pairs seen).map fun p => (p.1.id, p.2.start),
       docs0 ++ (dedupPairsByKey pairs seen).map fun p => mkRawDoc p.1 p.2) := by
  induction pairs with
  | nil => intro seen docs0; simp [dedupPairsByKey]
  | cons p ps ih =>
    intro seen docs0
    rw [List.foldl_cons]
    by_cases hk : (p.1.id, p.2.start) ∈ seen
    · rw [if_pos hk]
      unfold dedupPairsByKey
      rw [if_pos hk]
      exact ih seen docs0
    · rw [if_neg hk]
      unfold dedupPairsByKey
      rw [if_neg hk]
      rw [ih (seen ++ [(p.1.id, p.2.start)]) (docs0 ++ [mkRawDoc p.1 p.2])]
      simp [List.append_assoc]

theorem dedupPairs_keys_nodup (pairs : List (VideoInfo × Snip)) :
    ∀ seen : List (String × Int),
      (((dedupPairsByKey pairs seen).map fun p => (p.1.id, p.2.start)).Nodup) ∧
      ∀ k ∈ (dedupPairsByKey pairs seen).map fun p => (p.1.id, p.2.start), k ∉ seen := by
  induction pairs with
  | nil => intro seen; simp [dedupPairsByKey]
  | cons p ps ih =>
    intro seen
    unfold dedupPairsByKey
    by_cases hk : (p.1.id, p.2.start) ∈ seen
    · rw [if_pos hk]
      exact ih seen
    · rw [if_neg hk]
      have IH := ih (seen ++ [(p.1.id, p.2.start)])
      simp only [List.map_cons]
      constructor
      · rw [List.nodup_cons]
        refine ⟨fun hmem => ?_, IH.1⟩
        have := IH.2 _ hmem
        exact this (List.mem_append.mpr (Or.inr (List.mem_singleton.mpr rfl)))
      · intro k hk2
        rcases List.mem_cons.mp hk2 with rfl | hrest
        · exact hk
        · intro hks
          exact IH.2 k hrest (List.mem_append.mpr (Or.inl hks))

/-- C8: ingestion deduplicates snippets by `(video_id, integer start second)`:
the raw documents are exactly those built from the first fetched snippet of
each distinct key, in order — any later snippet sharing a key is skipped —
and the produced `(video_id, start)` keys are pairwise distinct. -/
theorem C8_snippet_dedup (videos : List (VideoInfo × Option (List Snip))) :
    buildDocs videos =
      (dedupPairsByKey (allSnipPairs videos) []).map (fun p => mkRawDoc p.1 p.2) ∧
    ((buildDocs videos).map fun d => (d.video_id, d.start)).Nodup := by
  have h1 : buildDocs videos =
      (dedupPairsByKey (allSnipPairs videos) []).map fun p => mkRawDoc p.1 p.2 := by
    show (videos.foldl
      (fun st vt =>
        match vt.2 with
        | none => st
        | some transcript =>
          transcript.foldl
            (fun st snip =>
              if (vt.1.id, snip.start) ∈ st.1 then st
              else (st.1 ++ [(vt.1.id, snip.start)], st.2 ++ [mkRawDoc vt.1 snip]))
            st) ([], [])).2 = _
    rw [snipFold_flatten videos ([], []), dedup_fold_spec (allSnipPairs videos) [] []]
    simp
  refine ⟨h1, ?_⟩
  rw [h1, List.map_map]
  exact (dedupPairs_keys_nodup (allSnipPairs videos) []).1

/-! ## C6: timestamp formatting and deep links — helper lemmas -/

theorem decDigits_natRepr (n : Nat) : decDigits (natRepr n).data = n := by
  by_cases h : n = 0
  · subst h; decide
  · simp only [natRepr, h, if_false]
    show decDigits (natDigitsAux n n) = n
    exact decDigits_natDigitsAux (le_refl n)

theorem natDigitsAux_zero (fuel : Nat) : natDigitsAux fuel 0 = [] := by
  cases fuel <;> simp [natDigitsAux]

theorem natDigitsAux_single {fuel n : Nat} (h1 : 0 < n) (h2 : n < 10) (h3 : n ≤ fuel) :
    natDigitsAux fuel n = [digitChar n] := by
  cases fuel with
  | zero => omega
  | succ f =>
    simp only [natDigitsAux]
    rw [if_neg (by omega), Nat.div_eq_of_lt h2, natDigitsAux_zero,
      Nat.mod_eq_of_lt h2]
    rfl

theorem natDigitsAux_double {fuel n : Nat} (h1 : 10 ≤ n) (h2 : n < 100) (h3 : n ≤ fuel) :
    natDigitsAux fuel n = [digitChar (n / 10), digitChar (n % 10)] := by
  cases fuel with
  | zero => omega
  | succ f =>
    simp only [natDigitsAux]
    rw [if_neg (by omega),
      natDigitsAux_single (show 0 < n / 10 by omega) (show n / 10 < 10 by omega)
        (show n / 10 ≤ f by omega)]
    rfl

theorem natRepr_length_single {n : Nat} (h : n < 10) : (natRepr n).length = 1 := by
  by_cases h0 : n = 0
  · subst h0; decide
  · simp only [natRepr, h0, if_false]
    show (natDigitsAux n n).length = 1
    rw [natDigitsAux_single (by omega) h (le_refl n)]
    rfl

theorem decDigits_cons_zero (l : List Char) : decDigits ('0' :: l) = decDigits l := rfl

/-- C6 general formatter part: for every nonnegative start `s`, `_ts`
renders minutes and a two-character zero-padded seconds field that decode
back to `s / 60` and `s % 60`. -/
theorem ts_format (s : Nat) :
    ∃ mins secs : String, _ts (s : Int) = mins ++ ":" ++ secs ∧
      decDigits mins.data = s / 60 ∧ decDigits secs.data = s % 60 ∧
      secs.length = 2 := by
  have hmax : (max 0 (s : Int)).toNat = s := by
    rw [max_eq_right (Int.ofNat_nonneg s)]
    rfl
  have hts : _ts (s : Int) = natRepr (s / 60) ++ ":" ++
      (if s % 60 < 10 then "0" ++ natRepr (s % 60) else natRepr (s % 60)) := by
    unfold _ts
    rw [hmax]
  by_cases h : s % 60 < 10
  · refine ⟨natRepr (s / 60), "0" ++ natRepr (s % 60), ?_, decDigits_natRepr _, ?_, ?_⟩
    · rw [hts, if_pos h]
    · rw [String.data_append, show ("0" : String).data = ['0'] from rfl]
      show decDigits ('0' :: (natRepr (s % 60)).data) = s % 60
      rw [decDigits_cons_zero, decDigits_natRepr]
    · rw [String.length_append, natRepr_length_single h]
      rfl
  · have h60 : s % 60 < 60 := Nat.mod_lt _ (by norm_num)
    refine ⟨natRepr (s / 60), natRepr (s % 60), ?_, decDigits_natRepr _,
      decDigits_natRepr _, ?_⟩
    · rw [hts, if_neg h]
    · simp only [natRepr, show ¬ (s % 60 = 0) by omega, if_false]
      show (natDigitsAux (s % 60) (s % 60)).length = 2
      rw [natDigitsAux_double (by omega) (by omega) (le_refl _)]
      rfl

theorem digitChar_isDigit {d : Nat} (h : d < 10) : (digitChar d).isDigit = true := by
  interval_cases d <;> decide

theorem natDigitsAux_digits {fuel n : Nat} :
    ∀ c ∈ natDigitsAux fuel n, c.isDigit = true := by
  induction fuel generalizing n with
  | zero => intro c hc; cases hc
  | succ f ih =>
    intro c hc
    by_cases h : n = 0
    · rw [h, show natDigitsAux (f + 1) 0 = [] from rfl] at hc
      cases hc
    · simp only [natDigitsAux, h, if_false] at hc
      rcases List.mem_append.mp hc with h1 | h1
      · exact ih c h1
      · rw [List.mem_singleton] at h1
        rw [h1]
        exact digitChar_isDigit (Nat.mod_lt _ (by norm_num))

theorem isAlwaysSafe_of_isDigit {c : Char} (h : c.isDigit = true) :
    isAlwaysSafe c = true := by
  unfold isAlwaysSafe
  rw [h]
  simp

theorem intRepr_s_safe (s : Int) :
    ∀ c ∈ (intRepr s ++ "s").data, isAlwaysSafe c = true := by
  intro c hc
  rw [String.data_append] at hc
  rcases List.mem_append.mp hc with h1 | h1
  · unfold intRepr at h1
    by_cases hn : s < 0
    · rw [if_pos hn, String.data_append] at h1
      rcases List.mem_append.mp h1 with h2 | h2
      · rw [show ("-" : String).data = ['-'] from rfl, List.mem_singleton] at h2
        rw [h2]; decide
      · by_cases hz : (-s).toNat = 0
        · rw [hz] at h2
          rw [show natRepr 0 = "0" from rfl] at h2
          rw [show ("0" : String).data = ['0'] from rfl, List.mem_singleton] at h2
          rw [h2]; decide
        · simp only [natRepr, hz, if_false] at h2
          exact isAlwaysSafe_of_isDigit (natDigitsAux_digits c h2)
    · rw [if_neg hn] at h1
      by_cases hz : s.toNat = 0
      · rw [hz] at h1
        rw [show natRepr 0 = "0" from rfl] at h1
        rw [show ("0" : String).data = ['0'] from rfl, List.mem_singleton] at h1
        rw [h1]; decide
      · simp only [natRepr, hz, if_false] at h1
        exact isAlwaysSafe_of_isDigit (natDigitsAux_digits c h1)
  · rw [show ("s" : String).data = ['s'] from rfl, List.mem_singleton] at h1
    rw [h1]; decide

theorem flatten_map_quoteChar_safe :
    ∀ l : List Char, (∀ c ∈ l, isAlwaysSafe c = true) → (l.map quoteChar).flatten = l := by
  intro l
  induction l with
  | nil => intro _; rfl
  | cons c cs ih =>
    intro h
    rw [List.map_cons, List.flatten_cons, ih fun x hx => h x (List.mem_cons_of_mem c hx)]
    unfold quoteChar
    rw [if_pos (h c (List.mem_cons_self c cs))]
    rfl

theorem quotePlus_safe {s : String} (h : ∀ c ∈ s.data, isAlwaysSafe c = true) :
    quotePlus s = s := by
  apply string_data_inj
  show (s.data.map quoteChar).flatten = s.data
  exact flatten_map_quoteChar_safe s.data h

theorem setQsItem_mem (q : List (String × List String)) (k : String) (v : List String) :
    (k, v) ∈ setQsItem q k v := by
  induction q with
  | nil => exact List.mem_singleton.mpr rfl
  | cons p rest ih =>
    obtain ⟨k', v'⟩ := p
    unfold setQsItem
    by_cases h : k' = k
    · rw [if_pos h]
      exact List.mem_cons_self _ _
    · rw [if_neg h]
      exact List.mem_cons_of_mem _ ih

theorem setQsItem_lookup (q : List (String × List String)) (k : String) (v : List String) :
    (setQsItem q k v).lookup k = some v := by
  induction q with
  | nil => simp [setQsItem, List.lookup]
  | cons p rest ih =>
    obtain ⟨k', v'⟩ := p
    unfold setQsItem
    by_cases h : k' = k
    · rw [if_pos h]
      simp [List.lookup]
    · rw [if_neg h]
      have hb : (k == k') = false := beq_eq_false_iff_ne.mpr fun hh => h hh.symm
      simp [List.lookup, hb, ih]

theorem mem_urlencodeSegs {q : List (String × List String)} {k : String}
    {vs : List String} {v : String} (hq : (k, vs) ∈ q) (hv : v ∈ vs) :
    ((quotePlus k).data ++ '=' :: (quotePlus v).data) ∈ urlencodeSegs q := by
  unfold urlencodeSegs
  rw [List.mem_flatten]
  refine ⟨vs.map fun v => (quotePlus k).data ++ '=' :: (quotePlus v).data, ?_, ?_⟩
  · exact List.mem_map_of_mem _ hq
  · exact List.mem_map_of_mem _ hv

theorem infix_intercalateChar {seg : List Char} {segs : List (List Char)}
    (h : seg ∈ segs) :
    ∃ l r, intercalateChar '&' segs = l ++ seg ++ r := by
  induction segs with
  | nil => cases h
  | cons x xs ih =>
    rcases List.mem_cons.mp h with rfl | hm
    · cases xs with
      | nil => exact ⟨[], [], by simp [intercalateChar]⟩
      | cons y ys =>
        exact ⟨[], '&' :: intercalateChar '&' (y :: ys), by simp [intercalateChar]⟩
    · cases xs with
      | nil => cases hm
      | cons y ys =>
        rcases ih hm with ⟨l, r, he⟩
        exact ⟨x ++ '&' :: l, r, by simp [intercalateChar, he]⟩

theorem listStartsWith_append (p r : List Char) : listStartsWith (p ++ r) p = true := by
  induction p with
  | nil => cases r <;> rfl
  | cons a as ih => simp [listStartsWith, ih]

theorem containsSub_nil_sub : ∀ hay : List Char, containsSub hay [] = true
  | [] => rfl
  | a :: as => by
    show (listStartsWith (a :: as) [] || containsSub as []) = true
    rw [containsSub_nil_sub as]
    simp [listStartsWith]

theorem containsSub_of_parts {hay sub : List Char} (l r : List Char)
    (h : hay = l ++ sub ++ r) : containsSub hay sub = true := by
  subst h
  induction l with
  | nil =>
    rw [List.nil_append]
    cases sub with
    | nil => exact containsSub_nil_sub r
    | cons b bs =>
      show (listStartsWith (b :: (bs ++ r)) (b :: bs) || containsSub (bs ++ r) (b :: bs)) = true
      rw [show b :: (bs ++ r) = (b :: bs) ++ r from rfl, listStartsWith_append]
      simp
  | cons a as ih =>
    rw [List.cons_append]
    show (listStartsWith (a :: (as ++ sub ++ r)) sub || containsSub (as ++ sub ++ r) sub) = true
    rw [ih]
    simp

theorem query_shape_parts (p2 query fragment : String) (hq : query ≠ "") :
    ∃ l r : List Char,
      (if fragment ≠ "" then
          (if query ≠ "" then p2 ++ "?" ++ query else p2) ++ "#" ++ fragment
        else (if query ≠ "" then p2 ++ "?" ++ query else p2)).data =
        l ++ query.data ++ r := by
  by_cases hf : fragment ≠ ""
  · rw [if_pos hf, if_pos hq]
    refine ⟨(p2 ++ "?").data, ("#" ++ fragment).data, ?_⟩
    simp [String.data_append, List.append_assoc]
  · rw [if_neg hf, if_pos hq]
    refine ⟨(p2 ++ "?").data, [], ?_⟩
    simp [String.data_append, List.append_assoc]

theorem urlunsplitStr_query_parts (scheme netloc url query fragment : String)
    (hq : query ≠ "") :
    ∃ l r : List Char,
      (urlunsplitStr scheme netloc url query fragment).data = l ++ query.data ++ r := by
  unfold urlunsplitStr
  exact query_shape_parts _ query fragment hq

theorem add_ts_contains (url : String) (s : Int) :
    strContains (_add_ts url s) ("t=" ++ intRepr s ++ "s") = true := by
  have hsafe : quotePlus (intRepr s ++ "s") = intRepr s ++ "s" :=
    quotePlus_safe (intRepr_s_safe s)
  have htq : quotePlus "t" = "t" := by decide
  have hmemq := setQsItem_mem (parse_qs (urlparse url).query.data) "t" [intRepr s ++ "s"]
  have hseg := mem_urlencodeSegs hmemq (List.mem_singleton.mpr rfl)
  rw [htq, hsafe] at hseg
  obtain ⟨l, r, hir⟩ := infix_intercalateChar hseg
  have hqne : urlencode
      (setQsItem (parse_qs (urlparse url).query.data) "t" [intRepr s ++ "s"]) ≠ "" := by
    intro h0
    have hd := congrArg String.data h0
    rw [show (urlencode (setQsItem (parse_qs (urlparse url).query.data) "t"
        [intRepr s ++ "s"])).data =
      intercalateChar '&' (urlencodeSegs (setQsItem (parse_qs (urlparse url).query.data)
        "t" [intRepr s ++ "s"])) from rfl, hir,
      show ("" : String).data = [] from rfl] at hd
    simp at hd
  obtain ⟨L, R, hLR⟩ := urlunsplitStr_query_parts (urlparse url).scheme
    (urlparse url).netloc
    (if (urlparse url).params ≠ ""
      then (urlparse url).path ++ ";" ++ (urlparse url).params
      else (urlparse url).path)
    (urlencode (setQsItem (parse_qs (urlparse url).query.data) "t" [intRepr s ++ "s"]))
    (urlparse url).fragment hqne
  have hstep : (_add_ts url s).data =
      L ++ (urlencode (setQsItem (parse_qs (urlparse url).query.data) "t"
        [intRepr s ++ "s"])).data ++ R := hLR
  apply containsSub_of_parts (L ++ l) (r ++ R)
  show (_add_ts url s).data = (L ++ l) ++ ("t=" ++ intRepr s ++ "s").data ++ (r ++ R)
  have hsubeq : ("t=" ++ intRepr s ++ "s").data =
      "t".data ++ '=' :: (intRepr s ++ "s").data := by
    simp [String.data_append]
  rw [hstep, show (urlencode (setQsItem (parse_qs (urlparse url).query.data) "t"
      [intRepr s ++ "s"])).data =
    intercalateChar '&' (urlencodeSegs (setQsItem (parse_qs (urlparse url).query.data)
      "t" [intRepr s ++ "s"])) from rfl, hir, hsubeq]
  simp [List.append_assoc]

/-- C6: for a document with start 185 and url `https://youtu.be/abc` the
citation URL is `https://youtu.be/abc?t=185s` (containing `t=185s`) and the
formatted timestamp is `3:05`; in general `_ts` renders seconds as
minutes:seconds with a two-character zero-padded seconds field, and
`_add_ts` injects — overwriting any previous value — the `t=<seconds>s`
query parameter into the source URL. -/
theorem C6_deep_link_and_timestamp :
    _add_ts "https://youtu.be/abc" 185 = "https://youtu.be/abc?t=185s" ∧
    _ts 185 = "3:05" ∧
    strContains (_add_ts "https://youtu.be/abc" 185) "t=185s" = true ∧
    (∀ s : Nat, ∃ mins secs : String, _ts (s : Int) = mins ++ ":" ++ secs ∧
        decDigits mins.data = s / 60 ∧ decDigits secs.data = s % 60 ∧
        secs.length = 2) ∧
    (∀ (url : String) (s : Int),
        strContains (_add_ts url s) ("t=" ++ intRepr s ++ "s") = true) ∧
    (∀ (url : String) (s : Int),
        (setQsItem (parse_qs (urlparse url).query.data) "t"
          [intRepr s ++ "s"]).lookup "t" = some [intRepr s ++ "s"]) :=
  ⟨by decide, by decide, by decide, ts_format, add_ts_contains,
   fun url s => setQsItem_lookup (parse_qs (urlparse url).query.data) "t"
     [intRepr s ++ "s"]⟩
